import Mathlib

/-!
Verification of `src/display_annotations.py` (class `DisplayAnnotations`).

Shallow embedding conventions:
* Python strings are `String`; slicing works on the code-point list `String.toList`.
* Python ints are `Int`; `np.random.randint(lo, hi)` draws from the half-open
  interval `[lo, hi)` (numpy's upper bound is exclusive), modelled by `Finset.Ico`.
* A Python dict in insertion order is an association list `List (String × α)`.
* `os.listdir` results are modelled as an explicit input list of
  (filename, parsed file) pairs; `json.load` success is presumed by typing the
  parsed file as `AFile` (parse failures abort the whole run and are outside
  every claim considered here).
* The fallible paths of the script (an `IndexError` from a digit-less filename,
  an `AttributeError` from `setdefault(...).append` hitting a non-list value)
  are modelled with `Except`/`Option`.
* Python's `sorted` is a stable sort; a stable sort's output is uniquely
  determined, so it is modelled by `List.insertionSort` (proved stable in
  Mathlib).
-/

/-! ## Python slicing (used by `_format_output`: `record["text"][start:end]`) -/

/-- Length of a Python string in code points. -/
def textLen (s : String) : Nat := s.toList.length

/-- Python slice-bound normalisation for a sequence of length `n`:
negative indices count from the end, then both ends clamp into `[0, n]`. -/
def pyIdx (n : Nat) (i : Int) : Nat :=
  if i < 0 then (i + n).toNat else min i.toNat n

/-- Python `s[a:b]` (step 1) on strings. -/
def pySlice (s : String) (a b : Int) : String :=
  String.mk ((s.toList.drop (pyIdx s.toList.length a)).take
    (pyIdx s.toList.length b - pyIdx s.toList.length a))

/-- Modelled from the spec's words (§8 "Slicing"): the half-open `[start, end)`
slice of `text`, i.e. the characters at positions `start ≤ j < end`.  This is
the spec-side definition compared against the source's `pySlice`. -/
def sliceSpec (s : String) (a b : Int) : String :=
  String.mk ((s.toList.drop a.toNat).take ((b - a).toNat))

/-! ## Data model -/

/-- An entity span as built by `_read_json_files`: the dict
`{"start": e[0], "end": e[1], "label": e[2]}` (the JSON key `end` is rendered
`end_` because `end` is a Lean keyword). -/
structure Ent where
  start : Int
  end_ : Int
  label : String
  deriving DecidableEq, Repr

/-- One flattened record appended by `_read_json_files`: the dict with keys
`labels`, `text`, `ents`, `title`, `rec_num`. -/
structure Record where
  labels : List String
  text : String
  ents : List Ent
  title : String
  rec_num : Int
  deriving DecidableEq, Repr

/-- One parsed input JSON file (§6): `classes` plus the `annotations` list of
(text, entities) pairs, an entity being the raw triple `[start, end, label]`. -/
structure AFile where
  classes : List String
  paragraphs : List (String × List (Int × Int × String))
  deriving DecidableEq, Repr

/-- Failure conditions of the loader.  `malformedFilename` models the abort
caused by `re.findall(r"\d+", filename)[0]` on a digit-less filename (an
`IndexError` in Python; the spec names the condition `MalformedFilename`). -/
inductive LoadError where
  | malformedFilename (filename : String)
  deriving DecidableEq, Repr

instance {ε α : Type _} [DecidableEq ε] [DecidableEq α] : DecidableEq (Except ε α) := fun x y =>
  match x, y with
  | .ok a, .ok b =>
    if h : a = b then isTrue (by rw [h]) else isFalse (fun hc => h (Except.ok.inj hc))
  | .error e, .error f =>
    if h : e = f then isTrue (by rw [h]) else isFalse (fun hc => h (Except.error.inj hc))
  | .ok _, .error _ => isFalse (fun hc => Except.noConfusion hc)
  | .error _, .ok _ => isFalse (fun hc => Except.noConfusion hc)

/-! ## Record Loader (`_read_json_files`) -/

/-- First maximal run of decimal digits in a character list:
`re.findall(r"\d+", s)[0]`, `none` when `re.findall` returns no match. -/
def firstDigitRun : List Char → Option (List Char)
  | [] => none
  | c :: cs => if c.isDigit then some (c :: cs.takeWhile Char.isDigit) else firstDigitRun cs

/-- Python `int` on a (non-empty, sign-less) digit string. -/
def natOfDigits (ds : List Char) : Nat :=
  ds.foldl (fun acc c => 10 * acc + (c.toNat - 48)) 0

/-- `int(re.findall(r"\d+", filename)[0])`, when a digit run exists. -/
def recNumOfFilename (filename : String) : Option Int :=
  (firstDigitRun filename.toList).map (fun ds => (natOfDigits ds : Int))

/-- Effectful map for a loop that aborts on its first raised exception
(`Except`'s `mapM`, unfolded for direct reasoning). -/
def exceptMap {α β ε : Type _} (f : α → Except ε β) : List α → Except ε (List β)
  | [] => .ok []
  | a :: as =>
    match f a with
    | .error e => .error e
    | .ok b =>
      match exceptMap f as with
      | .error e => .error e
      | .ok bs => .ok (b :: bs)

/-- The records contributed by one parsed file: one per paragraph, in paragraph
order.  Note the source evaluates `re.findall(...)[0]` inside the paragraph
loop, so a digit-less filename only aborts if the file has at least one
paragraph. -/
def recordsOfFile (filename : String) (a : AFile) : Except LoadError (List Record) :=
  exceptMap (fun p =>
    match recNumOfFilename filename with
    | none => .error (.malformedFilename filename)
    | some n =>
      .ok { labels := a.classes
            text := p.1
            ents := p.2.map (fun e => ⟨e.1, e.2.1, e.2.2⟩)
            title := filename
            rec_num := n }) a.paragraphs

/-- The test `filename.endswith(".json")`, on code-point lists. -/
def isJsonName (s : String) : Bool :=
  ".json".toList.isSuffixOf s.toList

/-- The discovery-order record list: files whose name ends in `.json`, in
listing order, each contributing its paragraphs in order (the state of
`self._annotations` just before the final `sorted`). -/
def readJsonFilesRaw (files : List (String × AFile)) : Except LoadError (List Record) :=
  (exceptMap (fun f => recordsOfFile f.1 f.2)
    (files.filter (fun f => isJsonName f.1))).map List.flatten

/-- The sort key relation of `sorted(self._annotations, key=lambda e: e["rec_num"])`. -/
def recLE (a b : Record) : Prop := a.rec_num ≤ b.rec_num

instance : DecidableRel recLE := fun a b => Int.decLe a.rec_num b.rec_num

instance : IsTotal Record recLE := ⟨fun a b => Int.le_total a.rec_num b.rec_num⟩

instance : IsTrans Record recLE := ⟨fun _ _ _ h1 h2 => Int.le_trans h1 h2⟩

/-- Python's `sorted` is stable; stable sorting is uniquely determined by the
key order, so it is modelled by Mathlib's (stable) insertion sort. -/
def sortRecords (l : List Record) : List Record := l.insertionSort recLE

/-- The full `_read_json_files`: discovery, then the stable sort by `rec_num`. -/
def readJsonFiles (files : List (String × AFile)) : Except LoadError (List Record) :=
  (readJsonFilesRaw files).map sortRecords

/-! ## Output Formatter (`_format_output`) -/

/-- A cell of an output row: the record id (`rec_output[id_name] = rec_num`)
or a list of extracted tokens. -/
inductive Val where
  | intV : Int → Val
  | listV : List String → Val
  deriving DecidableEq, Repr

/-- One output row: a Python dict in insertion order. -/
abbrev Row := List (String × Val)

/-- Dict lookup (first, and only, occurrence of a key). -/
def rowGet : Row → String → Option Val
  | [], _ => none
  | (k, v) :: rest, key => if k = key then some v else rowGet rest key

/-- The token slice appended for one entity:
`record["text"][ent["start"] : ent["end"]]`. -/
def extractTok (text : String) (e : Ent) : String :=
  pySlice text e.start e.end_

/-- `rec_output.setdefault(label, []).append(tok)`: append `tok` to the list at
`key`, creating the list on first occurrence; `none` models the
`AttributeError` raised when the key already holds a non-list value. -/
def setdefaultAppend : Row → String → String → Option Row
  | [], key, tok => some [(key, .listV [tok])]
  | (k, .listV l) :: rest, key, tok =>
    if k = key then some ((k, .listV (l ++ [tok])) :: rest)
    else (setdefaultAppend rest key tok).map (fun r => (k, .listV l) :: r)
  | (k, .intV n) :: rest, key, tok =>
    if k = key then none
    else (setdefaultAppend rest key tok).map (fun r => (k, .intV n) :: r)

/-- The `for ent in record["ents"]` loop body, folded over the entity list. -/
def addEnts (text : String) : Row → List Ent → Option Row
  | row, [] => some row
  | row, e :: es =>
    (setdefaultAppend row e.label (extractTok text e)).bind (fun row2 => addEnts text row2 es)

/-- One iteration of `_format_output`: start the row with the identifier field,
then fold the record's entities into it. -/
def formatRecord (idName : String) (r : Record) : Option Row :=
  addEnts r.text [(idName, .intV r.rec_num)] r.ents

/-- The whole `_format_output`: one row per record, in record order. -/
def formatOutput (idName : String) (recs : List Record) : Option (List Row) :=
  recs.mapM (formatRecord idName)

/-- The extracted tokens of the entities labelled `lab`, in entity order. -/
def toksOf (text : String) (ents : List Ent) (lab : String) : List String :=
  (ents.filter (fun e => e.label == lab)).map (extractTok text)

/-- How one key's cell evolves across a run of `setdefault(...).append(...)`
calls appending `ts`: a list grows at its end, an absent key appears on the
first append, and any other cell is untouched. -/
def mergeVal : Option Val → List String → Option Val
  | o, [] => o
  | some (.listV l), ts => some (.listV (l ++ ts))
  | some (.intV n), _ => some (.intV n)
  | none, ts => some (.listV ts)

/-! ## Color Allocator (`_gen_colors`) -/

/-- The sample space of `np.random.randint(lo, hi)`: numpy's upper bound is
exclusive, so the legal values are `lo, …, hi - 1`. -/
def randint (lo hi : Int) : Finset Int := Finset.Ico lo hi

/-- One sampled color: `np.random.randint(128, 255, 3)`. -/
structure Color where
  r : Int
  g : Int
  b : Int
  deriving DecidableEq, Repr

/-- A color every one of whose channels is a legal `randint(128, 255)` draw. -/
def inSpace (c : Color) : Prop :=
  c.r ∈ randint 128 255 ∧ c.g ∈ randint 128 255 ∧ c.b ∈ randint 128 255

instance (c : Color) : Decidable (inSpace c) := by
  unfold inSpace
  infer_instance

/-- The numpy membership test
`[val - diff, val, val + diff] in colors[:, i]`: the probe list broadcasts
against the prior channel values, so the test is true iff some prior value
equals one of the three probes exactly. -/
def probeHit (prior : List Int) (v t : Int) : Bool :=
  prior.any (fun p => p == v - t || p == v || p == v + t)

/-- The candidate-rejection test of the `while not created` loop: the `if`
accepts as soon as one channel's probe misses, so a candidate is rejected iff
the probe hits on all three channels (`_min_color_diff = 10`). -/
def rejected (colors : List Color) (c : Color) : Bool :=
  probeHit (colors.map Color.r) c.r 10 &&
  probeHit (colors.map Color.g) c.g 10 &&
  probeHit (colors.map Color.b) c.b 10

/-- The `while not created` retry loop, driven by the draw stream `ds` starting
at draw index `i`.  The source has no retry bound; `fuel` only bounds how far
the model unrolls the loop, with `none` meaning the loop is still running after
`fuel` iterations. -/
def nextAccepted (colors : List Color) (ds : Nat → Color) (i : Nat) : Nat → Option (Color × Nat)
  | 0 => none
  | fuel + 1 =>
    if rejected colors (ds i) then nextAccepted colors ds (i + 1) fuel
    else some (ds i, i + 1)

/-- The `for _ in range(_label_count - 1)` loop: accept `k` more colors. -/
def genColorsAux (ds : Nat → Color) : Nat → Nat → List Color → Nat → Option (List Color)
  | 0, _, colors, _ => some colors
  | k + 1, i, colors, fuel =>
    match nextAccepted colors ds i fuel with
    | none => none
    | some (c, i2) => genColorsAux ds k i2 (colors ++ [c]) fuel

/-- `_gen_colors` over the label list of the first record: the first color is
the first draw, accepted unconditionally; each of the remaining
`len(labels) - 1` colors comes from the retry loop; `dict(zip(labels, colors))`
pairs the labels with the colors. -/
def genColors (ds : Nat → Color) (fuel : Nat) (labels : List String) :
    Option (List (String × Color)) :=
  (genColorsAux ds (labels.length - 1) 1 [ds 0] fuel).map (fun cs => labels.zip cs)

/-! ## Excel melt (`_write_excel_output`)

`pd.read_json(json.dumps(output))` turns the row dicts into a frame whose cell
at (row, column) is the dict value when the key is present and `NaN` otherwise
— modelled as `rowGet row col : Option Val`, with `none` for `NaN`.

`pd.melt(df, id_vars=[id_name], value_vars=list(output[0].keys()), ...)`:
pandas (≥ 1.1) selects `frame.iloc[:, unique(indexer(id_vars + value_vars))]`
and then pops the `id_vars` columns, so the value columns that actually melt
are the first row's keys minus the identifier, in first-row key order; the
melted data is laid out column-major (`ravel("F")`): for each value column,
one entry per input row.  `dropna(subset=["VALUE"])` then removes the entries
whose cell was absent, and `sort_values(col)` sorts by the configured column.
-/

/-- The melted value columns: the first row's keys minus the identifier. -/
def meltValueCols (idName : String) (rows : List Row) : List String :=
  match rows with
  | [] => []
  | r0 :: _ => (r0.map Prod.fst).filter (fun k => k != idName)

/-- The raw melted entries, before `dropna`: column-major triples of
(identifier cell, column name, value cell), `none` modelling `NaN`. -/
def meltRaw (idName : String) (rows : List Row) : List (Option Val × String × Option Val) :=
  ((meltValueCols idName rows).map
    (fun c => rows.map (fun r => (rowGet r idName, c, rowGet r c)))).flatten

/-- One row of the long-form output, after `dropna`: columns
`<id_name>`, `NAME`, `VALUE`. -/
structure LongRow where
  rid : Option Val
  name : String
  value : Val
  deriving DecidableEq, Repr

/-- `df.dropna(subset=["VALUE"])`: keep exactly the entries whose value cell is
present. -/
def dropnaVal : List (Option Val × String × Option Val) → List LongRow
  | [] => []
  | (i, n, some v) :: rest => ⟨i, n, v⟩ :: dropnaVal rest
  | (_, _, none) :: rest => dropnaVal rest

/-- `df.sort_values(col)`, the configured sort column abstracted as the key
function `key` (for the default `RECORD_ID` column see `ridKey`). -/
def sortValues (key : LongRow → Int) (l : List LongRow) : List LongRow :=
  l.insertionSort (fun a b => key a ≤ key b)

/-- The default sort key: the `RECORD_ID` column.  Rows produced by
`_format_output` always hold `Val.intV rec_num` there; the catch-all `0` is
never reached on such rows. -/
def ridKey (lr : LongRow) : Int :=
  match lr.rid with
  | some (.intV n) => n
  | _ => 0

/-- The melt branch of `_write_excel_output`: melt, drop the absent values,
sort by the configured column. -/
def writeExcelMelt (idName : String) (key : LongRow → Int) (rows : List Row) : List LongRow :=
  sortValues key (dropnaVal (meltRaw idName rows))

/-- Grouping the long rows back by record and label: the value cells of the
long rows carrying a given identifier cell and column name, in output order. -/
def groupVals (longs : List LongRow) (i : Option Val) (lab : String) : List Val :=
  (longs.filter (fun lr => decide (lr.rid = i) && decide (lr.name = lab))).map LongRow.value

/-! ## Theorems -/

/-- C1: for every record and every entity span on it, the substring extracted
by the Output Formatter equals the record's text sliced by the span's
half-open `[start, end)` offsets; in particular an entity with
`start == end` yields the empty string. -/
theorem C1_slice_halfopen (r : Record) (e : Ent) (_hmem : e ∈ r.ents)
    (h0 : 0 ≤ e.start) (hse : e.start ≤ e.end_) (hend : e.end_ ≤ (textLen r.text : Int)) :
    extractTok r.text e = sliceSpec r.text e.start e.end_ ∧
    (e.start = e.end_ → extractTok r.text e = "") := by
  have hn : textLen r.text = r.text.toList.length := rfl
  rw [hn] at hend
  constructor
  · unfold extractTok pySlice sliceSpec
    have h1 : pyIdx r.text.toList.length e.start = e.start.toNat := by
      unfold pyIdx
      rw [if_neg (by omega)]
      omega
    have h2 : pyIdx r.text.toList.length e.end_ = e.end_.toNat := by
      unfold pyIdx
      rw [if_neg (by omega)]
      omega
    rw [h1, h2]
    have h3 : e.end_.toNat - e.start.toNat = (e.end_ - e.start).toNat := by omega
    rw [h3]
  · intro heq
    unfold extractTok pySlice
    rw [heq, Nat.sub_self, List.take_zero]

/-- Witness for C1 on the spec's scenario B record. -/
theorem C1_witness :
    extractTok "Paris is nice" ⟨0, 5, "LOC"⟩ =
      sliceSpec "Paris is nice" 0 5 ∧
    ((0 : Int) = 5 → extractTok "Paris is nice" ⟨0, 5, "LOC"⟩ = "") :=
  C1_slice_halfopen
    ⟨["LOC"], "Paris is nice", [⟨0, 5, "LOC"⟩], "record_7.json", 7⟩
    ⟨0, 5, "LOC"⟩ (by decide) (by decide) (by decide) (by decide)

/-- C2: for every well-formed input directory, the loaded record collection is
sorted non-decreasing by `rec_num`, and records with equal `rec_num`
(including across different source files) keep their original relative
discovery order (the sort is stable). -/
theorem C2_load_sorted_stable (files : List (String × AFile)) (l recs : List Record)
    (hraw : readJsonFilesRaw files = .ok l)
    (h : readJsonFiles files = .ok recs) :
    recs.Sorted recLE ∧
    ∀ k : Int, recs.filter (fun r => r.rec_num == k) = l.filter (fun r => r.rec_num == k) := by
  have hrecs : recs = sortRecords l := by
    unfold readJsonFiles at h
    rw [hraw] at h
    exact (Except.ok.inj h).symm
  subst hrecs
  refine ⟨List.sorted_insertionSort recLE l, ?_⟩
  intro k
  have hsub : List.Sublist (l.filter (fun r => r.rec_num == k)) (sortRecords l) := by
    apply List.sublist_insertionSort
    · apply List.pairwise_of_forall_mem_list
      intro a ha b hb
      have hak := (List.mem_filter.mp ha).2
      have hbk := (List.mem_filter.mp hb).2
      rw [beq_iff_eq] at hak hbk
      unfold recLE
      omega
    · exact List.filter_sublist l
  have hperm : List.Perm ((sortRecords l).filter (fun r => r.rec_num == k))
      (l.filter (fun r => r.rec_num == k)) :=
    (List.perm_insertionSort recLE l).filter _
  have hsub2 : List.Sublist (l.filter (fun r => r.rec_num == k))
      ((sortRecords l).filter (fun r => r.rec_num == k)) := by
    have h2 := hsub.filter (fun r => r.rec_num == k)
    rwa [List.filter_eq_self.mpr (fun a ha => (List.mem_filter.mp ha).2)] at h2
  exact (hsub2.eq_of_length hperm.length_eq.symm).symm

/-- Sample directory for the C2 witness: two files discovered out of id order,
plus a non-JSON file that is skipped. -/
def c2Files : List (String × AFile) :=
  [("record_2.json", ⟨["LOC"], [("b", [])]⟩),
   ("record_1.json", ⟨["LOC"], [("a", [])]⟩),
   ("skip.txt", ⟨["LOC"], [("z", [])]⟩)]

/-- Discovery-order records of `c2Files`. -/
def c2Raw : List Record :=
  [⟨["LOC"], "b", [], "record_2.json", 2⟩, ⟨["LOC"], "a", [], "record_1.json", 1⟩]

/-- Loaded (sorted) records of `c2Files`. -/
def c2Recs : List Record :=
  [⟨["LOC"], "a", [], "record_1.json", 1⟩, ⟨["LOC"], "b", [], "record_2.json", 2⟩]

/-- Witness for C2 on a two-file directory (the spec's scenario A plus a
skipped non-JSON file), with the stability conclusion instantiated at id 1. -/
theorem C2_witness :
    c2Recs.Sorted recLE ∧
    c2Recs.filter (fun r => r.rec_num == 1) = c2Raw.filter (fun r => r.rec_num == 1) :=
  ⟨(C2_load_sorted_stable c2Files c2Raw c2Recs (by decide) (by decide)).1,
   (C2_load_sorted_stable c2Files c2Raw c2Recs (by decide) (by decide)).2 1⟩

/-- Characterisation of a successful `setdefault(key, []).append(tok)`: the key
could not have held the id int, its list grew at the end (created on first
occurrence), every other key is untouched, and an int-valued head entry stays
the head. -/
theorem setdefaultAppend_sound {row row2 : Row} {key tok : String}
    (h : setdefaultAppend row key tok = some row2) :
    (∀ n, rowGet row key ≠ some (.intV n)) ∧
    rowGet row2 key = some (.listV ((match rowGet row key with
      | some (.listV l) => l
      | _ => []) ++ [tok])) ∧
    (∀ k, k ≠ key → rowGet row2 k = rowGet row k) ∧
    (∀ k0 n, row.head? = some (k0, .intV n) → row2.head? = some (k0, .intV n)) := by
  induction row generalizing row2 with
  | nil =>
    simp only [setdefaultAppend, Option.some.injEq] at h
    subst h
    refine ⟨by simp [rowGet], by simp [rowGet], ?_, by simp⟩
    intro k hk
    simp only [rowGet, if_neg (fun hc : key = k => hk hc.symm)]
  | cons kv rest ih =>
    obtain ⟨k, v⟩ := kv
    cases v with
    | intV n =>
      by_cases hk : k = key
      · rw [setdefaultAppend, if_pos hk] at h
        exact absurd h (by simp)
      · rw [setdefaultAppend, if_neg hk] at h
        cases hrest : setdefaultAppend rest key tok with
        | none => rw [hrest] at h; exact absurd h (by simp)
        | some rest2 =>
          rw [hrest] at h
          simp only [Option.map_some', Option.some.injEq] at h
          subst h
          obtain ⟨hint, hself, hother, _⟩ := ih hrest
          refine ⟨?_, ?_, ?_, ?_⟩
          · intro m
            rw [rowGet, if_neg hk]
            exact hint m
          · rw [rowGet, if_neg hk]
            rw [show rowGet ((k, Val.intV n) :: rest) key = rowGet rest key from by
              rw [rowGet, if_neg hk]]
            exact hself
          · intro k2 hk2
            rw [rowGet, rowGet]
            by_cases hkk : k = k2
            · rw [if_pos hkk, if_pos hkk]
            · rw [if_neg hkk, if_neg hkk]
              exact hother k2 hk2
          · intro k0 m hh
            rw [List.head?_cons, Option.some.injEq] at hh
            rw [List.head?_cons, hh]
    | listV l =>
      by_cases hk : k = key
      · subst hk
        rw [setdefaultAppend, if_pos rfl] at h
        simp only [Option.some.injEq] at h
        subst h
        refine ⟨?_, ?_, ?_, ?_⟩
        · intro n hc
          rw [rowGet, if_pos rfl] at hc
          exact absurd hc (by simp)
        · rw [rowGet, if_pos rfl]
          rw [show rowGet ((k, Val.listV l) :: rest) k = some (Val.listV l) from by
            rw [rowGet, if_pos rfl]]
        · intro k2 hk2
          rw [rowGet, rowGet]
          by_cases hkk : k = k2
          · exact absurd hkk (fun hc => hk2 hc.symm)
          · rw [if_neg hkk, if_neg hkk]
        · intro k0 n hh
          rw [List.head?_cons, Option.some.injEq] at hh
          exact absurd (congrArg Prod.snd hh) (by simp)
      · rw [setdefaultAppend, if_neg hk] at h
        cases hrest : setdefaultAppend rest key tok with
        | none => rw [hrest] at h; exact absurd h (by simp)
        | some rest2 =>
          rw [hrest] at h
          simp only [Option.map_some', Option.some.injEq] at h
          subst h
          obtain ⟨hint, hself, hother, _⟩ := ih hrest
          refine ⟨?_, ?_, ?_, ?_⟩
          · intro m
            rw [rowGet, if_neg hk]
            exact hint m
          · rw [rowGet, if_neg hk]
            rw [show rowGet ((k, Val.listV l) :: rest) key = rowGet rest key from by
              rw [rowGet, if_neg hk]]
            exact hself
          · intro k2 hk2
            rw [rowGet, rowGet]
            by_cases hkk : k = k2
            · rw [if_pos hkk, if_pos hkk]
            · rw [if_neg hkk, if_neg hkk]
              exact hother k2 hk2
          · intro k0 m hh
            rw [List.head?_cons, Option.some.injEq] at hh
            rw [List.head?_cons, hh]

/-- How the `for ent in record["ents"]` loop transforms each cell of the row:
the cell at `lab` gains exactly the tokens of the entities labelled `lab`, in
entity order, and an int-valued head entry stays the head. -/
theorem addEnts_sound (text : String) :
    ∀ (ents : List Ent) (row row2 : Row), addEnts text row ents = some row2 →
      (∀ lab, rowGet row2 lab = mergeVal (rowGet row lab) (toksOf text ents lab)) ∧
      (∀ k0 n, row.head? = some (k0, .intV n) → row2.head? = some (k0, .intV n)) := by
  intro ents
  induction ents with
  | nil =>
    intro row row2 h
    simp only [addEnts, Option.some.injEq] at h
    subst h
    exact ⟨fun lab => by simp [toksOf, mergeVal], fun k0 n hh => hh⟩
  | cons e es ih =>
    intro row row2 h
    rw [addEnts] at h
    cases hsd : setdefaultAppend row e.label (extractTok text e) with
    | none => rw [hsd] at h; exact absurd h (by simp)
    | some row1 =>
      rw [hsd] at h
      simp only [Option.some_bind] at h
      obtain ⟨hmerge1, hhead1⟩ := ih row1 row2 h
      obtain ⟨hint, hself, hother, hhead0⟩ := setdefaultAppend_sound hsd
      refine ⟨?_, fun k0 n hh => hhead1 k0 n (hhead0 k0 n hh)⟩
      intro lab
      by_cases hlab : lab = e.label
      · subst hlab
        rw [hmerge1 e.label, hself]
        have htoks : toksOf text (e :: es) e.label =
            extractTok text e :: toksOf text es e.label := by
          simp [toksOf]
        rw [htoks]
        cases hrg : rowGet row e.label with
        | none =>
          cases toksOf text es e.label with
          | nil => simp [mergeVal]
          | cons t ts => simp [mergeVal]
        | some v =>
          cases v with
          | intV n => exact absurd hrg (hint n)
          | listV lsts =>
            cases toksOf text es e.label with
            | nil => simp [mergeVal]
            | cons t ts => simp [mergeVal]
      · rw [hmerge1 lab, hother lab hlab]
        have htoks : toksOf text (e :: es) lab = toksOf text es lab := by
          simp only [toksOf, List.filter_cons]
          rw [if_neg (by simp only [beq_iff_eq]; exact fun hc => hlab hc.symm)]
        rw [htoks]

/-- Along a successful entity fold, a key holding the id int can be the label
of no entity in the list. -/
theorem addEnts_intV_labels (text : String) :
    ∀ (ents : List Ent) (row row2 : Row), addEnts text row ents = some row2 →
      ∀ k n, rowGet row k = some (.intV n) → k ∉ ents.map Ent.label := by
  intro ents
  induction ents with
  | nil =>
    intro row row2 _ k n _
    simp
  | cons e es ih =>
    intro row row2 h k n hk
    rw [addEnts] at h
    cases hsd : setdefaultAppend row e.label (extractTok text e) with
    | none => rw [hsd] at h; exact absurd h (by simp)
    | some row1 =>
      rw [hsd] at h
      simp only [Option.some_bind] at h
      obtain ⟨hint, _, hother, _⟩ := setdefaultAppend_sound hsd
      have hne : k ≠ e.label := by
        intro hc
        subst hc
        exact hint n hk
      have hk1 : rowGet row1 k = some (.intV n) := by
        rw [hother k hne]
        exact hk
      simp only [List.map_cons, List.mem_cons]
      rintro (hc | hc)
      · exact hne hc
      · exact ih row1 row2 h k n hk1 hc

/-- C3: for every record, the Output Formatter produces a row whose identifier
field holds the record's `rec_num`, and which maps each label occurring on the
record to the ordered list of that label's extracted substrings, appended in
entity order (the list being created on the label's first occurrence). -/
theorem C3_format_row (idName : String) (r : Record) (row : Row)
    (h : formatRecord idName r = some row) :
    rowGet row idName = some (.intV r.rec_num) ∧
    ∀ lab, lab ∈ r.ents.map Ent.label →
      rowGet row lab = some (.listV (toksOf r.text r.ents lab)) := by
  unfold formatRecord at h
  obtain ⟨hmerge, _⟩ := addEnts_sound r.text r.ents _ row h
  have hnotin := addEnts_intV_labels r.text r.ents _ row h idName r.rec_num (by simp [rowGet])
  constructor
  · rw [hmerge idName]
    rw [show rowGet [(idName, Val.intV r.rec_num)] idName = some (Val.intV r.rec_num) from by
      simp [rowGet]]
    cases toksOf r.text r.ents idName with
    | nil => simp [mergeVal]
    | cons t ts => simp [mergeVal]
  · intro lab hlab
    have hne : lab ≠ idName := fun he => hnotin (he ▸ hlab)
    rw [hmerge lab]
    rw [show rowGet [(idName, Val.intV r.rec_num)] lab = none from by
      rw [rowGet, if_neg (fun hc => hne hc.symm), rowGet]]
    obtain ⟨e, he, hel⟩ := List.mem_map.mp hlab
    have hmemf : e ∈ r.ents.filter (fun e' => e'.label == lab) :=
      List.mem_filter.mpr ⟨he, by simp [hel]⟩
    have htne : toksOf r.text r.ents lab ≠ [] := by
      unfold toksOf
      exact List.ne_nil_of_mem (List.mem_map_of_mem _ hmemf)
    cases hts : toksOf r.text r.ents lab with
    | nil => exact absurd hts htne
    | cons t ts => simp [mergeVal]

/-- The scenario-B record: text `"Paris is nice"` with one `LOC` entity. -/
def parisRec : Record :=
  ⟨["LOC"], "Paris is nice", [⟨0, 5, "LOC"⟩], "record_7.json", 7⟩

/-- The row the formatter produces for `parisRec`. -/
def parisRow : Row :=
  [("RECORD_ID", .intV 7), ("LOC", .listV ["Paris"])]

/-- Witness for C3 on the spec's scenario B. -/
theorem C3_witness :
    rowGet parisRow "RECORD_ID" = some (.intV 7) ∧
    rowGet parisRow "LOC" = some (.listV (toksOf parisRec.text parisRec.ents "LOC")) :=
  ⟨(C3_format_row "RECORD_ID" parisRec parisRow (by decide)).1,
   (C3_format_row "RECORD_ID" parisRec parisRow (by decide)).2 "LOC" (by decide)⟩

/-- C10: every row produced by the Output Formatter has the identifier field,
holding the record's `rec_num`, as its first field — before any label field —
and a record with no entity spans yields the row consisting of the identifier
field alone. -/
theorem C10_id_field_first (idName : String) (r : Record) (row : Row)
    (h : formatRecord idName r = some row) :
    row.head? = some (idName, .intV r.rec_num) ∧
    (r.ents = [] → row = [(idName, .intV r.rec_num)]) := by
  constructor
  · exact (addEnts_sound r.text r.ents _ row h).2 idName r.rec_num (by simp)
  · intro he
    unfold formatRecord at h
    rw [he] at h
    simp only [addEnts, Option.some.injEq] at h
    exact h.symm

/-- Witness for C10: the scenario-B record, and an entity-less record. -/
theorem C10_witness :
    parisRow.head? = some ("RECORD_ID", .intV 7) ∧
    ([("RECORD_ID", Val.intV 3)] : Row) = [("RECORD_ID", .intV 3)] :=
  ⟨(C10_id_field_first "RECORD_ID" parisRec parisRow (by decide)).1,
   (C10_id_field_first "RECORD_ID" ⟨["LOC"], "x", [], "record_3.json", 3⟩
      [("RECORD_ID", .intV 3)] (by decide)).2 rfl⟩

/-- A successful `exceptMap` run means every list element mapped successfully. -/
theorem exceptMap_ok_of_mem {α β ε : Type _} (f : α → Except ε β) :
    ∀ (l : List α) (ys : List β), exceptMap f l = .ok ys → ∀ x ∈ l, ∃ y, f x = .ok y := by
  intro l
  induction l with
  | nil =>
    intro ys _ x hx
    exact absurd hx (List.not_mem_nil x)
  | cons a as ih =>
    intro ys h x hx
    rw [exceptMap] at h
    cases hfa : f a with
    | error e => rw [hfa] at h; exact absurd h (by simp)
    | ok b =>
      rw [hfa] at h
      cases hrest : exceptMap f as with
      | error e => rw [hrest] at h; exact absurd h (by simp)
      | ok bs =>
        rcases List.mem_cons.mp hx with hxa | hxs
        · exact ⟨b, hxa ▸ hfa⟩
        · exact ih bs hrest x hxs

/-- Every element of a successful `exceptMap` run's output is the successful
image of some input element. -/
theorem exceptMap_mem_ok {α β ε : Type _} (f : α → Except ε β) :
    ∀ (l : List α) (ys : List β), exceptMap f l = .ok ys → ∀ y ∈ ys, ∃ x ∈ l, f x = .ok y := by
  intro l
  induction l with
  | nil =>
    intro ys h y hy
    rw [exceptMap] at h
    have hys : ys = [] := (Except.ok.inj h).symm
    subst hys
    exact absurd hy (List.not_mem_nil y)
  | cons a as ih =>
    intro ys h y hy
    rw [exceptMap] at h
    cases hfa : f a with
    | error e => rw [hfa] at h; exact absurd h (by simp)
    | ok b =>
      rw [hfa] at h
      cases hrest : exceptMap f as with
      | error e => rw [hrest] at h; exact absurd h (by simp)
      | ok bs =>
        rw [hrest] at h
        have hys : ys = b :: bs := (Except.ok.inj h).symm
        subst hys
        rcases List.mem_cons.mp hy with hyb | hybs
        · exact ⟨a, List.mem_cons_self a as, hyb ▸ hfa⟩
        · obtain ⟨x, hx, hfx⟩ := ih bs hrest y hybs
          exact ⟨x, List.mem_cons_of_mem a hx, hfx⟩

/-- C7 counterexample: `notes.json` has no digit run, yet a directory holding
it loads successfully (with no records) when the file has no paragraphs,
because the source computes `re.findall(r"\d+", filename)[0]` once per
paragraph, not per file — so no `MalformedFilename` condition is raised. -/
theorem C7_counterexample :
    readJsonFiles [("notes.json", ⟨[], []⟩)] = .ok [] := by decide

/-- C7 (amended): a JSON-suffixed digit-less filename aborts the load with
`MalformedFilename` provided the file has at least one paragraph (a
paragraph-less one contributes nothing and does not fail); when the filename
contains digits, every record's `rec_num` is the integer parsed from the first
digit run found anywhere in the filename. -/
theorem C7_digit_run (name : String) (a : AFile) (files : List (String × AFile)) :
    (firstDigitRun name.toList = none → a.paragraphs ≠ [] →
      recordsOfFile name a = .error (.malformedFilename name)) ∧
    ((name, a) ∈ files → isJsonName name = true → firstDigitRun name.toList = none →
      a.paragraphs ≠ [] → ∃ err, readJsonFiles files = .error err) ∧
    (∀ recs, recordsOfFile name a = .ok recs → ∀ r ∈ recs,
      ∃ ds, firstDigitRun name.toList = some ds ∧ r.rec_num = (natOfDigits ds : Int)) := by
  have hnum : ∀ hn : firstDigitRun name.toList = none, recNumOfFilename name = none := by
    intro hn
    unfold recNumOfFilename
    rw [hn]
    rfl
  have herr : firstDigitRun name.toList = none → a.paragraphs ≠ [] →
      recordsOfFile name a = .error (.malformedFilename name) := by
    intro hn hne
    obtain ⟨p, ps, hps⟩ := List.exists_cons_of_ne_nil hne
    unfold recordsOfFile
    rw [hps, exceptMap, hnum hn]
  refine ⟨herr, ?_, ?_⟩
  · intro hmem hjson hn hne
    cases hload : readJsonFiles files with
    | error err => exact ⟨err, rfl⟩
    | ok recs =>
      exfalso
      unfold readJsonFiles at hload
      cases hraw : readJsonFilesRaw files with
      | error e => rw [hraw] at hload; simp [Except.map] at hload
      | ok l =>
        unfold readJsonFilesRaw at hraw
        cases hmap : exceptMap (fun f => recordsOfFile f.1 f.2)
            (files.filter (fun f => isJsonName f.1)) with
        | error e => rw [hmap] at hraw; simp [Except.map] at hraw
        | ok ls =>
          have hin : (name, a) ∈ files.filter (fun f => isJsonName f.1) :=
            List.mem_filter.mpr ⟨hmem, hjson⟩
          obtain ⟨y, hy⟩ := exceptMap_ok_of_mem _ _ ls hmap (name, a) hin
          rw [herr hn hne] at hy
          exact absurd hy (by simp)
  · intro recs hok r hr
    unfold recordsOfFile at hok
    cases hds : firstDigitRun name.toList with
    | none =>
      exfalso
      by_cases hpar : a.paragraphs = []
      · rw [hpar] at hok
        rw [exceptMap] at hok
        have hrecs : recs = [] := (Except.ok.inj hok).symm
        rw [hrecs] at hr
        exact absurd hr (List.not_mem_nil r)
      · obtain ⟨p, ps, hps⟩ := List.exists_cons_of_ne_nil hpar
        rw [hps, exceptMap, hnum hds] at hok
        exact absurd hok (by simp)
    | some ds =>
      refine ⟨ds, rfl, ?_⟩
      have hnum2 : recNumOfFilename name = some (natOfDigits ds : Int) := by
        unfold recNumOfFilename
        rw [hds]
        rfl
      obtain ⟨p, _, hfp⟩ := exceptMap_mem_ok _ _ recs hok r hr
      rw [hnum2] at hfp
      have hrec := Except.ok.inj hfp
      rw [← hrec]

/-- Witness for C7: a digit-less one-paragraph file fails the load, a
directory containing it fails the load, and `record_12.json` yields records
with id 12. -/
theorem C7_witness :
    recordsOfFile "notes.json" ⟨["LOC"], [("x", [])]⟩ =
      .error (.malformedFilename "notes.json") ∧
    (∃ err, readJsonFiles [("notes.json", ⟨["LOC"], [("x", [])]⟩)] = .error err) ∧
    (∃ ds, firstDigitRun "record_12.json".toList = some ds ∧
      (⟨["LOC"], "x", [], "record_12.json", 12⟩ : Record).rec_num = (natOfDigits ds : Int)) :=
  ⟨(C7_digit_run "notes.json" ⟨["LOC"], [("x", [])]⟩ []).1 (by decide) (by decide),
   (C7_digit_run "notes.json" ⟨["LOC"], [("x", [])]⟩
       [("notes.json", ⟨["LOC"], [("x", [])]⟩)]).2.1
     (by decide) (by decide) (by decide) (by decide),
   (C7_digit_run "record_12.json" ⟨["LOC"], [("x", [])]⟩ []).2.2
     [⟨["LOC"], "x", [], "record_12.json", 12⟩] (by decide)
     ⟨["LOC"], "x", [], "record_12.json", 12⟩ (by decide)⟩

/-- Every long row surviving `dropna` came from a melted entry whose value cell
was present. -/
theorem dropnaVal_mem :
    ∀ (l : List (Option Val × String × Option Val)) (lr : LongRow),
      lr ∈ dropnaVal l → (lr.rid, lr.name, some lr.value) ∈ l := by
  intro l
  induction l with
  | nil =>
    intro lr h
    exact absurd h (List.not_mem_nil lr)
  | cons t rest ih =>
    intro lr h
    obtain ⟨i, n, v⟩ := t
    cases v with
    | none =>
      rw [dropnaVal] at h
      exact List.mem_cons_of_mem _ (ih lr h)
    | some v =>
      rw [dropnaVal] at h
      rcases List.mem_cons.mp h with heq | hmem
      · rw [heq]
        exact List.mem_cons_self _ _
      · exact List.mem_cons_of_mem _ (ih lr hmem)

/-- C4: the reshape takes its column schema from the first wide row only, so
every long row's field name is a non-identifier key of the first row; melted
label fields existing only on later rows contribute nothing, as computed
exactly on the spec's scenario C (two LOC rows, zero ORG rows). -/
theorem C4_first_row_schema :
    (∀ (idName : String) (key : LongRow → Int) (r0 : Row) (rest : List Row),
      ∀ lr ∈ writeExcelMelt idName key (r0 :: rest),
        lr.name ∈ r0.map Prod.fst ∧ lr.name ≠ idName) ∧
    writeExcelMelt "RECORD_ID" ridKey
      [[("RECORD_ID", .intV 1), ("LOC", .listV ["Paris"])],
       [("RECORD_ID", .intV 2), ("LOC", .listV ["Rome"]), ("ORG", .listV ["UN"])]] =
      [⟨some (.intV 1), "LOC", .listV ["Paris"]⟩,
       ⟨some (.intV 2), "LOC", .listV ["Rome"]⟩] := by
  constructor
  · intro idName key r0 rest lr hmem
    unfold writeExcelMelt sortValues at hmem
    have hmem2 : lr ∈ dropnaVal (meltRaw idName (r0 :: rest)) :=
      (List.perm_insertionSort _ _).mem_iff.mp hmem
    have ht := dropnaVal_mem _ _ hmem2
    unfold meltRaw at ht
    rw [List.mem_flatten] at ht
    obtain ⟨block, hblock, hin⟩ := ht
    rw [List.mem_map] at hblock
    obtain ⟨c, hc, hbeq⟩ := hblock
    rw [← hbeq] at hin
    rw [List.mem_map] at hin
    obtain ⟨r, _, heq⟩ := hin
    have hname : c = lr.name := congrArg (fun t => t.2.1) heq
    rw [meltValueCols] at hc
    obtain ⟨hmem0, hne⟩ := List.mem_filter.mp hc
    subst hname
    exact ⟨hmem0, by simpa using hne⟩
  · decide

/-- Witness for C4's general part, instantiated on the first long row of the
scenario-C output. -/
theorem C4_witness :
    (⟨some (.intV 1), "LOC", .listV ["Paris"]⟩ : LongRow).name ∈
      ([("RECORD_ID", Val.intV 1), ("LOC", Val.listV ["Paris"])] : Row).map Prod.fst ∧
    (⟨some (.intV 1), "LOC", .listV ["Paris"]⟩ : LongRow).name ≠ "RECORD_ID" :=
  C4_first_row_schema.1 "RECORD_ID" ridKey
    [("RECORD_ID", Val.intV 1), ("LOC", Val.listV ["Paris"])]
    [[("RECORD_ID", Val.intV 2), ("LOC", Val.listV ["Rome"]), ("ORG", Val.listV ["UN"])]]
    ⟨some (.intV 1), "LOC", .listV ["Paris"]⟩ (by decide)

/-- The `dropna` step in `filterMap` form. -/
theorem dropnaVal_eq_filterMap :
    ∀ l : List (Option Val × String × Option Val),
      dropnaVal l = l.filterMap (fun t => t.2.2.map (fun v => LongRow.mk t.1 t.2.1 v)) := by
  intro l
  induction l with
  | nil => rfl
  | cons t rest ih =>
    obtain ⟨i, n, v⟩ := t
    cases v with
    | none =>
      rw [dropnaVal, ih]
      rfl
    | some v =>
      rw [dropnaVal, ih]
      rfl

/-- C8: in the long-form reshape every absent (`NaN`) value entry is dropped —
the output is a permutation of exactly the present-valued melted entries — and
the output is non-decreasing in the configured sort column. -/
theorem C8_melt_drop_sorted (idName : String) (key : LongRow → Int) (rows : List Row) :
    List.Pairwise (fun a b => key a ≤ key b) (writeExcelMelt idName key rows) ∧
    List.Perm (writeExcelMelt idName key rows)
      ((meltRaw idName rows).filterMap
        (fun t => t.2.2.map (fun v => LongRow.mk t.1 t.2.1 v))) := by
  constructor
  · haveI h1 : IsTotal LongRow (fun a b => key a ≤ key b) := ⟨fun a b => Int.le_total _ _⟩
    haveI h2 : IsTrans LongRow (fun a b => key a ≤ key b) := ⟨fun a b c => Int.le_trans⟩
    exact List.sorted_insertionSort _ _
  · rw [writeExcelMelt, sortValues, ← dropnaVal_eq_filterMap]
    exact List.perm_insertionSort _ _

/-- `dropna` distributes over append. -/
theorem dropnaVal_append :
    ∀ l1 l2 : List (Option Val × String × Option Val),
      dropnaVal (l1 ++ l2) = dropnaVal l1 ++ dropnaVal l2 := by
  intro l1 l2
  induction l1 with
  | nil => rfl
  | cons t rest ih =>
    obtain ⟨i0, n0, v0⟩ := t
    cases v0 with
    | none =>
      rw [List.cons_append, dropnaVal, dropnaVal, ih]
    | some v =>
      rw [List.cons_append, dropnaVal, dropnaVal, ih, List.cons_append]

/-- Group-back distributes over append. -/
theorem groupVals_append (A B : List LongRow) (i : Option Val) (lab : String) :
    groupVals (A ++ B) i lab = groupVals A i lab ++ groupVals B i lab := by
  simp [groupVals, List.filter_append]

/-- A melted column other than the grouped one contributes nothing. -/
theorem groupVals_block_ne (idName : String) (i : Option Val) (lab c : String)
    (hne : c ≠ lab) :
    ∀ rows : List Row,
      groupVals (dropnaVal (rows.map (fun r => (rowGet r idName, c, rowGet r c)))) i lab
        = [] := by
  intro rows
  induction rows with
  | nil => rfl
  | cons r rs ih =>
    simp only [List.map_cons]
    cases hcell : rowGet r c with
    | none =>
      rw [dropnaVal]
      exact ih
    | some v =>
      rw [dropnaVal]
      simp only [groupVals, List.filter_cons] at ih ⊢
      rw [if_neg (by simp [hne])]
      exact ih

/-- The melted column of the grouped label contributes exactly the present
cells of the rows whose identifier cell is the grouped one, in row order. -/
theorem groupVals_block_eq (idName : String) (i : Option Val) (lab : String) :
    ∀ rows : List Row,
      groupVals (dropnaVal (rows.map (fun r => (rowGet r idName, lab, rowGet r lab)))) i lab =
        rows.filterMap (fun r => if rowGet r idName = i then rowGet r lab else none) := by
  intro rows
  induction rows with
  | nil => rfl
  | cons r rs ih =>
    simp only [List.map_cons, List.filterMap_cons]
    by_cases hid : rowGet r idName = i
    · cases hcell : rowGet r lab with
      | none =>
        rw [dropnaVal]
        rw [ih]
        rw [if_pos hid]
      | some v =>
        rw [dropnaVal]
        simp only [groupVals, List.filter_cons] at ih ⊢
        rw [if_pos (by simp [hid])]
        rw [if_pos hid]
        simp only [List.map_cons]
        rw [ih]
    · cases hcell : rowGet r lab with
      | none =>
        rw [dropnaVal]
        rw [ih]
        rw [if_neg hid]
      | some v =>
        rw [dropnaVal]
        simp only [groupVals, List.filter_cons] at ih ⊢
        rw [if_neg (by simp [hid])]
        rw [if_neg hid]
        rw [ih]

/-- Grouping back over the melted blocks of a duplicate-free column list:
only the block of the grouped label contributes, and only when that label is
one of the melted columns. -/
theorem meltGroup (idName : String) (rows : List Row) (i : Option Val) (lab : String) :
    ∀ cols : List String, cols.Nodup →
      groupVals (dropnaVal (List.flatten (cols.map
        (fun c => rows.map (fun r => (rowGet r idName, c, rowGet r c)))))) i lab =
      if lab ∈ cols then
        rows.filterMap (fun r => if rowGet r idName = i then rowGet r lab else none)
      else [] := by
  intro cols
  induction cols with
  | nil =>
    intro _
    rw [if_neg (List.not_mem_nil lab)]
    rfl
  | cons c cs ih =>
    intro hnod
    rw [List.map_cons, List.flatten_cons, dropnaVal_append, groupVals_append]
    obtain ⟨hcnotin, hnods⟩ := List.nodup_cons.mp hnod
    by_cases hc : c = lab
    · subst hc
      rw [groupVals_block_eq]
      rw [ih hnods]
      rw [if_neg (fun hmem => hcnotin hmem)]
      rw [if_pos (List.mem_cons_self _ _), List.append_nil]
    · rw [groupVals_block_ne idName i lab c hc]
      rw [ih hnods]
      rw [List.nil_append]
      by_cases hmem : lab ∈ cs
      · rw [if_pos hmem, if_pos (List.mem_cons_of_mem _ hmem)]
      · rw [if_neg hmem, if_neg (by
          intro hmc
          rcases List.mem_cons.mp hmc with heq | hm
          · exact hc heq.symm
          · exact hmem hm)]

/-- With pairwise-distinct identifier cells, filtering the rows down to one
row's identifier keeps exactly that row's cell. -/
theorem filterMap_unique_id (idName lab : String) :
    ∀ (rows : List Row) (r : Row), r ∈ rows →
      (rows.map (fun r' => rowGet r' idName)).Nodup →
      rows.filterMap
        (fun r' => if rowGet r' idName = rowGet r idName then rowGet r' lab else none) =
        (rowGet r lab).toList := by
  intro rows
  induction rows with
  | nil =>
    intro r hr
    exact absurd hr (List.not_mem_nil r)
  | cons r0 rs ih =>
    intro r hr hnod
    rw [List.map_cons, List.nodup_cons] at hnod
    obtain ⟨hnotin, hnods⟩ := hnod
    rcases List.mem_cons.mp hr with heq | hmem
    · subst heq
      rw [List.filterMap_cons, if_pos rfl]
      have hrest : rs.filterMap
          (fun r' => if rowGet r' idName = rowGet r idName then rowGet r' lab else none) =
          [] := by
        rw [List.filterMap_eq_nil_iff]
        intro r' hr'
        rw [if_neg (fun hc : rowGet r' idName = rowGet r idName =>
          hnotin (hc ▸ List.mem_map_of_mem _ hr'))]
      cases hcell : rowGet r lab with
      | none =>
        rw [hrest]
        rfl
      | some v =>
        rw [hrest]
        rfl
    · have hne : rowGet r0 idName ≠ rowGet r idName := by
        intro hc
        exact hnotin (hc ▸ List.mem_map_of_mem _ hmem)
      rw [List.filterMap_cons, if_neg hne]
      exact ih r hmem hnods

/-- A key with a present cell is among the row's keys. -/
theorem rowGet_mem_keys :
    ∀ (row : Row) (k : String), rowGet row k ≠ none → k ∈ row.map Prod.fst := by
  intro row
  induction row with
  | nil =>
    intro k h
    exact absurd rfl h
  | cons kv rest ih =>
    intro k h
    obtain ⟨k0, v0⟩ := kv
    rw [rowGet] at h
    by_cases hk : k0 = k
    · rw [List.map_cons]
      exact hk ▸ List.mem_cons_self _ _
    · rw [if_neg hk] at h
      exact List.mem_cons_of_mem _ (ih k h)

/-- The scenario-C wide rows, the second of which has a label field (`ORG`)
that the first row lacks. -/
def c9Rows : List Row :=
  [[("RECORD_ID", .intV 1), ("LOC", .listV ["Paris"])],
   [("RECORD_ID", .intV 2), ("LOC", .listV ["Rome"]), ("ORG", .listV ["UN"])]]

/-- C9 counterexample: the second wide row maps ORG to the non-empty list
["UN"], yet grouping the long rows back by record yields nothing for
(record 2, ORG): the wide→long→group-back round trip does not reconstruct the
original mapping, because the melt's column schema comes from the first row
only. -/
theorem C9_counterexample :
    rowGet [("RECORD_ID", Val.intV 2), ("LOC", Val.listV ["Rome"]),
        ("ORG", Val.listV ["UN"])] "ORG" = some (.listV ["UN"]) ∧
    groupVals (writeExcelMelt "RECORD_ID" ridKey c9Rows) (some (.intV 2)) "ORG" = [] := by
  decide

/-- C9 (amended): for a non-empty wide collection whose first row has
duplicate-free keys, whose rows have pairwise-distinct identifier cells, and
whose every non-identifier field also occurs on the first row, converting to
long form and grouping back by record reconstructs every row's label-to-values
mapping exactly (value lists are carried whole, so their internal order is
preserved). -/
theorem C9_roundtrip (idName : String) (key : LongRow → Int)
    (rows : List Row) (r0 : Row) (rest : List Row)
    (hrows : rows = r0 :: rest)
    (hnod0 : (r0.map Prod.fst).Nodup)
    (hids : (rows.map (fun r => rowGet r idName)).Nodup)
    (hsub : ∀ r ∈ rows, ∀ k ∈ r.map Prod.fst, k ≠ idName → rowGet r0 k ≠ none) :
    ∀ r ∈ rows, ∀ lab, lab ≠ idName →
      groupVals (writeExcelMelt idName key rows) (rowGet r idName) lab =
        (rowGet r lab).toList := by
  intro r hr lab hlab
  have hperm : List.Perm
      (groupVals (writeExcelMelt idName key rows) (rowGet r idName) lab)
      (groupVals (dropnaVal (meltRaw idName rows)) (rowGet r idName) lab) := by
    unfold writeExcelMelt sortValues groupVals
    exact ((List.perm_insertionSort _ _).filter _).map _
  have hcols : meltValueCols idName rows = (r0.map Prod.fst).filter (fun k => k != idName) := by
    rw [hrows, meltValueCols]
  have hnodcols : (meltValueCols idName rows).Nodup := by
    rw [hcols]
    exact hnod0.filter _
  have hcompute : groupVals (dropnaVal (meltRaw idName rows)) (rowGet r idName) lab =
      if lab ∈ meltValueCols idName rows then
        rows.filterMap
          (fun r' => if rowGet r' idName = rowGet r idName then rowGet r' lab else none)
      else [] := by
    unfold meltRaw
    exact meltGroup idName rows (rowGet r idName) lab (meltValueCols idName rows) hnodcols
  by_cases hmem : lab ∈ meltValueCols idName rows
  · rw [hcompute, if_pos hmem, filterMap_unique_id idName lab rows r hr hids] at hperm
    cases hv : rowGet r lab with
    | none =>
      rw [hv] at hperm
      exact hperm.eq_nil
    | some v =>
      rw [hv] at hperm
      exact List.perm_singleton.mp hperm
  · have hnone : rowGet r lab = none := by
      by_contra hne
      have hkeys : lab ∈ r.map Prod.fst := rowGet_mem_keys r lab hne
      have h0 : rowGet r0 lab ≠ none := hsub r hr lab hkeys hlab
      have hmem0 : lab ∈ r0.map Prod.fst := rowGet_mem_keys r0 lab h0
      have : lab ∈ meltValueCols idName rows := by
        rw [hcols]
        exact List.mem_filter.mpr ⟨hmem0, by simp [hlab]⟩
      exact hmem this
    rw [hcompute, if_neg hmem] at hperm
    rw [hnone]
    exact hperm.eq_nil

/-- Witness for C9 on a conforming two-row collection (both rows carry only
the LOC label), grouped back at the second record. -/
theorem C9_witness :
    groupVals (writeExcelMelt "RECORD_ID" ridKey
        [[("RECORD_ID", Val.intV 1), ("LOC", Val.listV ["Paris"])],
         [("RECORD_ID", Val.intV 2), ("LOC", Val.listV ["Rome"])]])
      (rowGet [("RECORD_ID", Val.intV 2), ("LOC", Val.listV ["Rome"])] "RECORD_ID") "LOC" =
      (rowGet [("RECORD_ID", Val.intV 2), ("LOC", Val.listV ["Rome"])] "LOC").toList :=
  C9_roundtrip "RECORD_ID" ridKey
    [[("RECORD_ID", Val.intV 1), ("LOC", Val.listV ["Paris"])],
     [("RECORD_ID", Val.intV 2), ("LOC", Val.listV ["Rome"])]]
    [("RECORD_ID", Val.intV 1), ("LOC", Val.listV ["Paris"])]
    [[("RECORD_ID", Val.intV 2), ("LOC", Val.listV ["Rome"])]]
    rfl (by decide) (by decide) (by decide)
    [("RECORD_ID", Val.intV 2), ("LOC", Val.listV ["Rome"])] (by decide) "LOC" (by decide)

/-- Every color the retry loop returns is one of the stream's draws. -/
theorem nextAccepted_mem (colors : List Color) (ds : Nat → Color) :
    ∀ (fuel i : Nat) (c : Color) (i2 : Nat),
      nextAccepted colors ds i fuel = some (c, i2) → ∃ j, c = ds j := by
  intro fuel
  induction fuel with
  | zero =>
    intro i c i2 h
    exact Option.noConfusion h
  | succ fl ih =>
    intro i c i2 h
    rw [nextAccepted] at h
    by_cases hrej : rejected colors (ds i) = true
    · rw [if_pos hrej] at h
      exact ih (i + 1) c i2 h
    · rw [if_neg hrej] at h
      have hpair := Option.some.inj h
      exact ⟨i, (congrArg Prod.fst hpair).symm⟩

/-- A successful color-accumulation run grows the color list by exactly the
remaining label count, and every accumulated color is an initial color or one
of the stream's draws. -/
theorem genColorsAux_spec (ds : Nat → Color) :
    ∀ (k i : Nat) (colors cs : List Color) (fuel : Nat),
      genColorsAux ds k i colors fuel = some cs →
      cs.length = colors.length + k ∧
      ∀ c ∈ cs, c ∈ colors ∨ ∃ j, c = ds j := by
  intro k
  induction k with
  | zero =>
    intro i colors cs fuel h
    rw [genColorsAux] at h
    obtain rfl : colors = cs := Option.some.inj h
    exact ⟨by omega, fun c hc => Or.inl hc⟩
  | succ k ih =>
    intro i colors cs fuel h
    rw [genColorsAux] at h
    cases hna : nextAccepted colors ds i fuel with
    | none =>
      rw [hna] at h
      exact Option.noConfusion h
    | some ci =>
      obtain ⟨c0, i2⟩ := ci
      rw [hna] at h
      obtain ⟨hlen, hmem⟩ := ih i2 (colors ++ [c0]) cs fuel h
      constructor
      · rw [hlen, List.length_append]
        simp
        omega
      · intro c hc
        rcases hmem c hc with hin | hds
        · rcases List.mem_append.mp hin with h1 | h2
          · exact Or.inl h1
          · right
            obtain ⟨j, hj⟩ := nextAccepted_mem colors ds fuel i c0 i2 hna
            have hcc : c = c0 := List.mem_singleton.mp h2
            exact ⟨j, hcc ▸ hj⟩
        · exact Or.inr hds

/-- C5 (amended): whenever `_gen_colors` terminates it pairs each label, in
order, with exactly one color, every channel of every returned color is a
legal `randint(128, 255)` draw — i.e. lies in `[128, 254]`, a subset of the
claimed `[128, 255]` — and every value of the half-open draw range `[128, 255)`
is attainable as a channel of a returned color. -/
theorem C5_sampling :
    (∀ (labels : List String) (ds : Nat → Color) (fuel : Nat)
        (res : List (String × Color)),
      (∀ n, inSpace (ds n)) → genColors ds fuel labels = some res →
      res.map Prod.fst = labels ∧ ∀ p ∈ res, inSpace p.2) ∧
    (∀ v : Int, v ∈ randint 128 255 →
      ∃ ds : Nat → Color, (∀ n, inSpace (ds n)) ∧
        genColors ds 1 ["A"] = some [("A", ⟨v, v, v⟩)]) := by
  constructor
  · intro labels ds fuel res hds h
    unfold genColors at h
    cases haux : genColorsAux ds (labels.length - 1) 1 [ds 0] fuel with
    | none =>
      rw [haux] at h
      exact Option.noConfusion h
    | some cs =>
      rw [haux] at h
      simp only [Option.map_some', Option.some.injEq] at h
      subst h
      obtain ⟨hlen, hmem⟩ := genColorsAux_spec ds (labels.length - 1) 1 [ds 0] cs fuel haux
      constructor
      · apply List.map_fst_zip
        simp only [List.length_singleton] at hlen
        omega
      · intro p hp
        obtain ⟨lab, c⟩ := p
        have hsnd := (List.of_mem_zip hp).2
        rcases hmem c hsnd with hin | ⟨j, hj⟩
        · have hc0 : c = ds 0 := List.mem_singleton.mp hin
          rw [hc0]
          exact hds 0
        · rw [hj]
          exact hds j
  · intro v hv
    refine ⟨fun _ => ⟨v, v, v⟩, fun n => ⟨hv, hv, hv⟩, rfl⟩

/-- Whether `v` is attainable as the red channel of the color allocated for a
single label, over all legal draw streams. -/
def possibleChannel (v : Int) : Prop :=
  ∃ ds : Nat → Color, (∀ n, inSpace (ds n)) ∧
    ∃ res, genColors ds 1 ["A"] = some res ∧ ∃ c, res = [("A", c)] ∧ c.r = v

/-- C5 counterexample: channel value 255 — inside the claimed inclusive range
[128, 255] — is never attainable, because `np.random.randint(128, 255)` is
exclusive of its upper bound. -/
theorem C5_counterexample : ¬ possibleChannel 255 := by
  rintro ⟨ds, hds, res, hres, c, hceq, hcr⟩
  have hcomp : genColors ds 1 ["A"] = some [("A", ds 0)] := rfl
  rw [hcomp] at hres
  have hres2 : res = [("A", ds 0)] := (Option.some.inj hres).symm
  rw [hres2] at hceq
  have hc : c = ds 0 := by simpa using hceq.symm
  have hr := (hds 0).1
  unfold randint at hr
  rw [Finset.mem_Ico] at hr
  rw [hc] at hcr
  omega

/-- The labels, stream and result of the C5 witness run: the first draw is
taken as-is, the second draw is accepted because its probe misses on every
channel. -/
def c5Stream : Nat → Color :=
  fun n => match n with
  | 0 => ⟨128, 128, 128⟩
  | _ => ⟨140, 150, 160⟩

/-- The mapping the C5 witness run returns. -/
def c5Res : List (String × Color) :=
  [("LOC", ⟨128, 128, 128⟩), ("ORG", ⟨140, 150, 160⟩)]

/-- Witness for C5 on a two-label run. -/
theorem C5_witness :
    c5Res.map Prod.fst = ["LOC", "ORG"] ∧ ∀ p ∈ c5Res, inSpace p.2 :=
  C5_sampling.1 ["LOC", "ORG"] c5Stream 1 c5Res
    (fun n => by
      cases n with
      | zero => exact (by decide : inSpace ⟨128, 128, 128⟩)
      | succ m => exact (by decide : inSpace ⟨140, 150, 160⟩))
    (by decide)

/-- The legal channel values `[128, 254]` as an explicit list. -/
def coverVals : List Int :=
  (List.range 127).map (fun k => 128 + (k : Int))

/-- A prior-color state covering the whole legal draw space: the greys
`(v, v, v)` for every `v` in `[128, 254]`. -/
def coverColors : List Color :=
  coverVals.map (fun v => ⟨v, v, v⟩)

/-- Every legal channel value is a covered value. -/
theorem mem_coverVals (v : Int) (h1 : 128 ≤ v) (h2 : v < 255) : v ∈ coverVals := by
  unfold coverVals
  have hv : v = 128 + ((v - 128).toNat : Int) := by omega
  rw [hv]
  exact List.mem_map_of_mem (fun k : Nat => 128 + (k : Int))
    (List.mem_range.mpr (show (v - 128).toNat < 127 by omega))

/-- Each channel projection of `coverColors` is the full covered value list. -/
theorem coverColors_map (f : Color → Int) (hf : ∀ x : Int, f ⟨x, x, x⟩ = x) :
    coverColors.map f = coverVals := by
  unfold coverColors
  rw [List.map_map]
  have hm : coverVals.map (f ∘ fun v => (⟨v, v, v⟩ : Color)) = coverVals.map id :=
    List.map_congr_left (fun a _ => hf a)
  rw [hm, List.map_id]

/-- Against `coverColors`, the probe of any legal channel value hits: the value
itself is among the prior channel values. -/
theorem coverColors_hit (v : Int) (h1 : 128 ≤ v) (h2 : v < 255) (t : Int)
    (f : Color → Int) (hf : ∀ x : Int, f ⟨x, x, x⟩ = x) :
    probeHit (coverColors.map f) v t = true := by
  unfold probeHit
  rw [List.any_eq_true]
  refine ⟨v, ?_, ?_⟩
  · rw [coverColors_map f hf]
    exact mem_coverVals v h1 h2
  · simp

/-- Against `coverColors`, every legal candidate is rejected: all three
channel probes hit. -/
theorem coverColors_rejects (c : Color) (hc : inSpace c) :
    rejected coverColors c = true := by
  obtain ⟨hr, hg, hb⟩ := hc
  unfold randint at hr hg hb
  rw [Finset.mem_Ico] at hr hg hb
  unfold rejected
  rw [coverColors_hit c.r hr.1 hr.2 10 Color.r (fun x => rfl),
      coverColors_hit c.g hg.1 hg.2 10 Color.g (fun x => rfl),
      coverColors_hit c.b hb.1 hb.2 10 Color.b (fun x => rfl)]
  rfl

/-- C6: the `while not created` retry loop of `_gen_colors` has no retry
bound.  From the reachable prior-color state `coverColors`, in which the
accept criterion cannot be satisfied by any legal draw, the loop yields no
color after any number of iterations — the source loops forever instead of
failing with a `ColorAllocationExhausted`-style condition (no such condition
exists anywhere in the source). -/
theorem C6_no_retry_bound (ds : Nat → Color) (hds : ∀ n, inSpace (ds n)) :
    ∀ fuel i, nextAccepted coverColors ds i fuel = none := by
  intro fuel
  induction fuel with
  | zero => intro i; rfl
  | succ fl ih =>
    intro i
    rw [nextAccepted]
    rw [if_pos (coverColors_rejects (ds i) (hds i))]
    exact ih (i + 1)

/-- Witness for C6: five loop iterations on a concrete legal stream make no
progress out of the covering state. -/
theorem C6_witness :
    nextAccepted coverColors (fun _ => ⟨130, 140, 150⟩) 0 5 = none :=
  C6_no_retry_bound (fun _ => ⟨130, 140, 150⟩)
    (fun n => (by decide : inSpace ⟨130, 140, 150⟩)) 5 0
